import Mathlib

/-!
Verification of the anchoring/annotation engine and the retrieval layer of
the ADGM corporate-agent repository.

The Python sources are shallowly embedded:
* text (`str`) is modelled as `List Char`; Python's `s.lower()` is `low`,
  Python's substring test `a in b` is `containsSub`;
* `app/agents/docx_annotator.py`: the three per-issue anchoring strategies
  (`_find_paragraph_index`, `_keyword_anchor`, `_semantic_anchor`), the
  issue-routing loop of `annotate_docx`, the LLM-refinement placement,
  the comment-id allocation of `_add_word_comment`, and the save/retry logic;
* `app/services/retriever.py`: `FaissRetriever.__init__` and `search`;
* `app/agents/compliance_checker.py`: the `cite` closure of
  `_heuristic_issues`.

Machine floats (similarity scores) are modelled as rationals; the embedding
model itself is an oracle (the per-paragraph score list, or a per-issue
score-list function), since vector values are external to the repository.
-/

/-- Python `str.lower()` on text modelled as a character list. -/
def low (s : List Char) : List Char := s.map Char.toLower

/-- Coerce a Lean string literal into the character-list text model. -/
def s2l (s : String) : List Char := s.data

/-- Python's substring test `needle in hay`. -/
def containsSub (needle hay : List Char) : Bool := decide (needle <:+: hay)

/-- Evidence record, from `IssueEvidence` in `app/models/schemas.py`. -/
structure IssueEvidence where
  ref_id : List Char
  snippet : List Char
  source_url : Option (List Char)
deriving DecidableEq

/-- Issue record, from `IssueItem` in `app/models/schemas.py` (the float
field `groundedness` is modelled as a rational). -/
structure IssueItem where
  document : List Char
  «section» : List Char
  issue : List Char
  severity : List Char
  evidence : List IssueEvidence
  suggestion : Option (List Char)
  source_filename : Option (List Char)
  category : Option (List Char)
  groundedness : Option ℚ
  suggestion_long : Option (List Char)
deriving DecidableEq

/-- A default issue used only as a `getD` fallback in statements. -/
def dummyIssue : IssueItem :=
  ⟨[], [], [], [], [], none, none, none, none, none⟩

/-- Whether one (already lowered) candidate matches a paragraph text: the
loop body of `_find_paragraph_index` (docx_annotator.py line 29),
`c and c[:30] in txt`. -/
def candHit (c txt : List Char) : Bool :=
  !c.isEmpty && containsSub (c.take 30) (low txt)

/-- `_find_paragraph_index` (docx_annotator.py lines 22-31): lower the
non-empty candidates, then return the first paragraph index whose lowered
text contains the first 30 characters of some candidate. -/
def find_paragraph_index (paras : List (List Char)) (candidates : List (List Char)) :
    Option Nat :=
  let lowered := (candidates.filter (fun c => !c.isEmpty)).map low
  if lowered.isEmpty then none
  else paras.findIdx? (fun txt => lowered.any (fun c => candHit c txt))

/-- Candidate list built by `annotate_docx` (lines 251-257): first evidence
snippet, then issue text, then section label, each only when non-empty. -/
def issueCandidates (it : IssueItem) : List (List Char) :=
  (match it.evidence.head? with
   | some e => if !e.snippet.isEmpty then [e.snippet] else []
   | none => []) ++
  (if !it.issue.isEmpty then [it.issue] else []) ++
  (if !it.«section».isEmpty then [it.«section»] else [])

/-- The substring strategy as invoked by `annotate_docx` (line 258). -/
def substring_anchor (paras : List (List Char)) (it : IssueItem) : Option Nat :=
  find_paragraph_index paras (issueCandidates it)

/-- The match predicate the substring strategy tests on one paragraph:
some non-empty candidate's first 30 characters occur, case-insensitively,
inside the paragraph text. -/
def paraMatches (candidates : List (List Char)) (txt : List Char) : Prop :=
  ∃ c ∈ candidates, c ≠ [] ∧ containsSub ((low c).take 30) (low txt) = true

/-- The Boolean test actually run by `find_paragraph_index` on one paragraph
agrees with `paraMatches`. -/
theorem anyHit_iff_paraMatches (candidates : List (List Char)) (txt : List Char) :
    ((candidates.filter (fun c => !c.isEmpty)).map low).any (fun c => candHit c txt) = true
      ↔ paraMatches candidates txt := by
  simp only [List.any_eq_true, List.mem_map, List.mem_filter, paraMatches, candHit,
    Bool.and_eq_true, Bool.not_eq_true']
  constructor
  · rintro ⟨lc, ⟨c, ⟨hc, hne⟩, rfl⟩, -, hsub⟩
    refine ⟨c, hc, ?_, hsub⟩
    intro h
    rw [h] at hne
    simp [List.isEmpty] at hne
  · rintro ⟨c, hc, hne, hsub⟩
    refine ⟨low c, ⟨c, ⟨hc, ?_⟩, rfl⟩, ?_, hsub⟩
    · cases c with
      | nil => exact absurd rfl hne
      | cons a t => rfl
    · cases c with
      | nil => exact absurd rfl hne
      | cons a t => rfl

/-- All candidates empty exactly when the lowered candidate list is empty. -/
theorem lowered_isEmpty_iff (candidates : List (List Char)) :
    ((candidates.filter (fun c => !c.isEmpty)).map low).isEmpty = true
      ↔ ∀ c ∈ candidates, c = [] := by
  rw [List.isEmpty_iff, List.map_eq_nil_iff, List.filter_eq_nil_iff]
  constructor
  · intro h c hc
    have := h c hc
    simpa using this
  · intro h c hc
    simp [h c hc]

/-- Bounded getD agrees with getElem. -/
theorem getD_bounded {α : Type} (l : List α) (i : Nat) (d : α) (h : i < l.length) :
    l.getD i d = l.get ⟨i, h⟩ := by
  simp [List.getD_eq_getElem?_getD, List.getElem?_eq_getElem h]

/-- C6. The substring strategy builds its candidates in priority order
(first evidence snippet, then issue text, then section label — this is the
definition of `issueCandidates`) and returns the lowest paragraph index whose
text contains, case-insensitively, the first 30 characters of some non-empty
candidate (`paraMatches`); it returns no anchor when no paragraph matches
(which covers both "no paragraph contains any candidate's 30-char prefix" and
"no non-empty candidate exists"). The final conjunct shows the 30-character
boundary on a concrete input: a paragraph agreeing with a 30-char candidate
prefix on 29 characters but differing at the 30th does not match, while full
30-character agreement does. -/
theorem substring_anchor_spec (paras : List (List Char)) (it : IssueItem) :
    (∀ i, substring_anchor paras it = some i ↔
        i < paras.length ∧ paraMatches (issueCandidates it) (paras.getD i []) ∧
          ∀ j, j < i → ¬ paraMatches (issueCandidates it) (paras.getD j []))
    ∧ (substring_anchor paras it = none ↔
        ∀ j, j < paras.length → ¬ paraMatches (issueCandidates it) (paras.getD j []))
    ∧ find_paragraph_index [s2l "xxabcdefghijklmnopqrstuvwxyz012999"]
        [s2l "abcdefghijklmnopqrstuvwxyz0123tail"] = none
    ∧ find_paragraph_index [s2l "xxabcdefghijklmnopqrstuvwxyz0123zz"]
        [s2l "abcdefghijklmnopqrstuvwxyz0123tail"] = some 0 := by
  refine ⟨?_, ?_, by decide, by decide⟩
  · intro i
    unfold substring_anchor find_paragraph_index
    by_cases hemp : ((issueCandidates it).filter (fun c => !c.isEmpty)).map low = []
    · simp only [hemp]
      simp only [List.isEmpty_nil, if_true]
      constructor
      · intro h; cases h
      · rintro ⟨hi, ⟨c, hc, hne, -⟩, -⟩
        exfalso
        have := (lowered_isEmpty_iff (issueCandidates it)).1 (by simp [hemp])
        exact hne (this c hc)
    · have hne : (((issueCandidates it).filter (fun c => !c.isEmpty)).map low).isEmpty = false := by
        cases hh : ((issueCandidates it).filter (fun c => !c.isEmpty)).map low with
        | nil => exact absurd hh hemp
        | cons a t => simp [hh]
      simp only [hne, Bool.false_eq_true, if_false]
      rw [List.findIdx?_eq_some_iff_getElem]
      constructor
      · rintro ⟨h, hp, hmin⟩
        refine ⟨h, ?_, ?_⟩
        · rw [getD_bounded _ _ _ h]
          exact (anyHit_iff_paraMatches _ _).1 (by simpa using hp)
        · intro j hj
          rw [getD_bounded _ _ _ (Nat.lt_trans hj h)]
          intro hm
          exact (hmin j hj) ((anyHit_iff_paraMatches _ _).2 (by simpa using hm))
      · rintro ⟨h, hp, hmin⟩
        rw [getD_bounded _ _ _ h] at hp
        refine ⟨h, (anyHit_iff_paraMatches _ _).2 hp, ?_⟩
        intro j hj
        have := hmin j hj
        rw [getD_bounded _ _ _ (Nat.lt_trans hj h)] at this
        intro hm
        exact this ((anyHit_iff_paraMatches _ _).1 (by simpa using hm))
  · unfold substring_anchor find_paragraph_index
    by_cases hemp : ((issueCandidates it).filter (fun c => !c.isEmpty)).map low = []
    · simp only [hemp, List.isEmpty_nil, if_true]
      constructor
      · intro _ j hj
        rintro ⟨c, hc, hcne, -⟩
        have := (lowered_isEmpty_iff (issueCandidates it)).1 (by simp [hemp])
        exact hcne (this c hc)
      · intro _; trivial
    · have hne : (((issueCandidates it).filter (fun c => !c.isEmpty)).map low).isEmpty = false := by
        cases hh : ((issueCandidates it).filter (fun c => !c.isEmpty)).map low with
        | nil => exact absurd hh hemp
        | cons a t => simp [hh]
      simp only [hne, Bool.false_eq_true, if_false]
      rw [List.findIdx?_eq_none_iff]
      constructor
      · intro h j hj
        have := h (paras.get ⟨j, hj⟩) (List.get_mem _ _ _)
        rw [getD_bounded _ _ _ hj]
        intro hm
        have hm' := (anyHit_iff_paraMatches (issueCandidates it) (paras.get ⟨j, hj⟩)).2 hm
        rw [hm'] at this
        cases this
      · intro h x hx
        rcases List.mem_iff_getElem.1 hx with ⟨j, hj, rfl⟩
        have := h j hj
        rw [getD_bounded _ _ _ hj] at this
        cases hb : ((issueCandidates it).filter (fun c => !c.isEmpty)).map low
            |>.any (fun c => candHit c (paras.get ⟨j, hj⟩)) with
        | false => simp [hb]
        | true =>
          exfalso
          exact this ((anyHit_iff_paraMatches _ _).1 (by simpa using hb))

/-- Closed instantiation of `substring_anchor_spec`: on a one-paragraph
document whose text contains the issue text, the substring strategy anchors
at paragraph 0. -/
theorem substring_anchor_spec_witness :
    substring_anchor [s2l "hello world"]
      ⟨[], [], s2l "hello", [], [], none, none, none, none, none⟩ = some 0 :=
  ((substring_anchor_spec [s2l "hello world"]
      ⟨[], [], s2l "hello", [], [], none, none, none, none, none⟩).1 0).mpr
    ⟨by decide, ⟨s2l "hello", by decide, by decide, by decide⟩,
      fun j hj => (Nat.not_lt_zero j hj).elim⟩

/-- The running strict-improvement argmax scan shared by `_keyword_anchor`
(docx_annotator.py lines 48-56) and `_semantic_anchor` (lines 71-77): walk
the scores in order, remembering the position of every strict improvement
over the running best, so ties are broken toward the lowest index. -/
def scanBest {α : Type} [LinearOrder α] : List α → Nat → Option Nat → α → Option Nat × α
  | [], _, bi, b => (bi, b)
  | s :: rest, i, bi, b =>
      if b < s then scanBest rest (i + 1) (some i) s
      else scanBest rest (i + 1) bi b

theorem foldl_max_init_le {α : Type} [LinearOrder α] :
    ∀ (l : List α) (b : α), b ≤ l.foldl max b := by
  intro l
  induction l with
  | nil => intro b; exact le_refl b
  | cons s rest ih =>
    intro b
    rw [List.foldl_cons]
    exact le_trans (le_max_left b s) (ih (max b s))

theorem mem_le_foldl_max {α : Type} [LinearOrder α] :
    ∀ (l : List α) (b x : α), x ∈ l → x ≤ l.foldl max b := by
  intro l
  induction l with
  | nil => intro b x hx; cases hx
  | cons s rest ih =>
    intro b x hx
    rw [List.foldl_cons]
    rcases List.mem_cons.1 hx with rfl | hx
    · exact le_trans (le_max_right b x) (foldl_max_init_le rest (max b x))
    · exact ih (max b s) x hx

theorem foldl_max_le_of {α : Type} [LinearOrder α] :
    ∀ (l : List α) (b c : α), b ≤ c → (∀ x ∈ l, x ≤ c) → l.foldl max b ≤ c := by
  intro l
  induction l with
  | nil => intro b c hb _; exact hb
  | cons s rest ih =>
    intro b c hb h
    rw [List.foldl_cons]
    exact ih (max b s) c (max_le hb (h s (List.mem_cons_self s rest)))
      (fun x hx => h x (List.mem_cons_of_mem s hx))

theorem scanBest_snd {α : Type} [LinearOrder α] :
    ∀ (l : List α) (i : Nat) (bi : Option Nat) (b : α),
      (scanBest l i bi b).2 = l.foldl max b := by
  intro l
  induction l with
  | nil => intro i bi b; rfl
  | cons s rest ih =>
    intro i bi b
    by_cases h : b < s
    · simp only [scanBest, if_pos h, List.foldl_cons, ih]
      rw [max_eq_right h.le]
    · simp only [scanBest, if_neg h, List.foldl_cons, ih]
      rw [max_eq_left (not_lt.1 h)]

theorem getD_irrel {α : Type} (l : List α) (i : Nat) (d d' : α) (h : i < l.length) :
    l.getD i d = l.getD i d' := by
  rw [getD_bounded _ _ _ h, getD_bounded _ _ _ h]

theorem scanBest_cases {α : Type} [LinearOrder α] :
    ∀ (l : List α) (i : Nat) (bi : Option Nat) (b : α),
      scanBest l i bi b = (bi, b) ∨
      ∃ off, off < l.length ∧ (scanBest l i bi b).1 = some (i + off) ∧
        (scanBest l i bi b).2 = l.getD off b ∧ b < (scanBest l i bi b).2 ∧
        ∀ j, j < off → l.getD j b < (scanBest l i bi b).2 := by
  intro l
  induction l with
  | nil => intro i bi b; exact Or.inl rfl
  | cons s rest ih =>
    intro i bi b
    by_cases h : b < s
    · right
      simp only [scanBest, if_pos h]
      rcases ih (i + 1) (some i) s with heq | ⟨off, hofflt, h1, h2, h3, h4⟩
      · refine ⟨0, by simp, ?_, ?_, ?_, ?_⟩
        · rw [heq]; simp
        · rw [heq]; simp
        · rw [heq]; exact h
        · intro j hj; omega
      · refine ⟨off + 1, by simpa using hofflt, ?_, ?_, ?_, ?_⟩
        · rw [h1]; congr 1; omega
        · rw [h2, List.getD_cons_succ]
          exact getD_irrel rest off s b hofflt
        · exact lt_trans h h3
        · intro j hj
          match j with
          | 0 =>
            rw [List.getD_cons_zero]
            exact h3
          | k + 1 =>
            rw [List.getD_cons_succ]
            rw [getD_irrel rest k b s (by omega)]
            exact h4 k (by omega)
    · simp only [scanBest, if_neg h]
      rcases ih (i + 1) bi b with heq | ⟨off, hofflt, h1, h2, h3, h4⟩
      · left; exact heq
      · right
        refine ⟨off + 1, by simpa using hofflt, ?_, ?_, h3, ?_⟩
        · rw [h1]; congr 1; omega
        · rw [h2, List.getD_cons_succ]
        · intro j hj
          match j with
          | 0 =>
            rw [List.getD_cons_zero]
            exact lt_of_le_of_lt (not_lt.1 h) h3
          | k + 1 =>
            rw [List.getD_cons_succ]
            exact h4 k (by omega)

/-- Number of keyword terms contained in a (lowered) paragraph text:
`sum(1 for k in keywords if k in pt)` (docx_annotator.py line 52). -/
def hitCount (keywords : List (List Char)) (ptxt : List Char) : Nat :=
  (keywords.filter (fun k => containsSub k (low ptxt))).length

/-- Keyword vocabulary selection of `_keyword_anchor` (lines 35-43):
jurisdiction/court terms, address terms, and the reset to the empty list for
absence issues (text containing "signature", or containing both "adgm" and
"not"). -/
def keywordList (issueText : List Char) : List (List Char) :=
  let text := low issueText
  let k1 := if containsSub (s2l "jurisdiction") text || containsSub (s2l "court") text then
      [s2l "jurisdiction", s2l "court", s2l "uae", s2l "abu dhabi", s2l "adgm"] else []
  let k2 := if containsSub (s2l "address") text then
      [s2l "address", s2l "registered office"] else []
  if containsSub (s2l "signature") text ||
      (containsSub (s2l "adgm") text && containsSub (s2l "not") text) then []
  else k1 ++ k2

/-- `_keyword_anchor` (docx_annotator.py lines 34-56): empty vocabulary means
no anchor; otherwise scan all paragraphs for the strictly best hit count and
return it only when positive. -/
def keyword_anchor (paras : List (List Char)) (issueText : List Char) : Option Nat :=
  let keywords := keywordList issueText
  if keywords.isEmpty then none
  else
    let r := scanBest (paras.map (fun p => hitCount keywords p)) 0 none 0
    if 0 < r.2 then r.1 else none

theorem getD_map_hit (keywords : List (List Char)) (paras : List (List Char)) (j : Nat)
    (h : j < paras.length) :
    (paras.map (fun p => hitCount keywords p)).getD j 0
      = hitCount keywords (paras.getD j []) := by
  have hl : j < (paras.map (fun p => hitCount keywords p)).length := by
    simpa using h
  rw [getD_bounded _ _ _ hl, getD_bounded _ _ _ h]
  simp [List.get_eq_getElem, List.getElem_map]

/-- C7. The keyword strategy: a returned index is in range, has strictly
positive hit count, is a maximiser of the hit count over all paragraphs, and
is the least such maximiser (ties go to the lowest index); an all-zero hit
count yields no anchor; any issue text containing "signature", or containing
both "adgm" and "not" (the absence issues), yields no anchor regardless of
paragraph content; the two concrete absence issue texts produced by the
heuristic compliance checker likewise never anchor; and conversely a
non-empty vocabulary together with some positive-count paragraph guarantees
an anchor. -/
theorem keyword_anchor_spec (paras : List (List Char)) (issueText : List Char) :
    (∀ i, keyword_anchor paras issueText = some i →
        i < paras.length ∧
        0 < hitCount (keywordList issueText) (paras.getD i []) ∧
        (∀ j, j < paras.length →
          hitCount (keywordList issueText) (paras.getD j [])
            ≤ hitCount (keywordList issueText) (paras.getD i [])) ∧
        (∀ j, j < i →
          hitCount (keywordList issueText) (paras.getD j [])
            < hitCount (keywordList issueText) (paras.getD i [])))
    ∧ ((∀ j, j < paras.length →
          hitCount (keywordList issueText) (paras.getD j []) = 0) →
        keyword_anchor paras issueText = none)
    ∧ (containsSub (s2l "signature") (low issueText) = true →
        keyword_anchor paras issueText = none)
    ∧ (containsSub (s2l "adgm") (low issueText) = true →
        containsSub (s2l "not") (low issueText) = true →
        keyword_anchor paras issueText = none)
    ∧ (keywordList issueText ≠ [] →
        (∃ j, j < paras.length ∧
          0 < hitCount (keywordList issueText) (paras.getD j [])) →
        ∃ i, keyword_anchor paras issueText = some i)
    ∧ (∀ paras2, keyword_anchor paras2 (s2l "Missing explicit signatory section.") = none)
    ∧ (∀ paras2,
        keyword_anchor paras2 (s2l "Document does not explicitly reference ADGM.") = none) := by
  refine ⟨?_, ?_, ?_, ?_, ?_, ?_, ?_⟩
  · intro i hi
    by_cases hk : (keywordList issueText).isEmpty
    · simp [keyword_anchor, hk] at hi
    · have hk' : (keywordList issueText).isEmpty = false := by
        simpa using hk
      simp only [keyword_anchor, hk', Bool.false_eq_true, if_false] at hi
      set scores := paras.map (fun p => hitCount (keywordList issueText) p) with hscores
      by_cases hpos : 0 < (scanBest scores 0 none 0).2
      · rw [if_pos hpos] at hi
        rcases scanBest_cases scores 0 none 0 with heq | ⟨off, hofflt, h1, h2, h3, h4⟩
        · rw [heq] at hi; cases hi
        · rw [h1] at hi
          have hoffi : i = off := by
            have := Option.some.inj hi; omega
          subst hoffi
          have hlen : i < paras.length := by
            simpa [hscores] using hofflt
          have hgd : scores.getD i 0 = hitCount (keywordList issueText) (paras.getD i []) := by
            rw [hscores]; exact getD_map_hit _ _ _ hlen
          refine ⟨hlen, ?_, ?_, ?_⟩
          · rw [← hgd, ← h2]; exact hpos
          · intro j hj
            have hjs : scores.getD j 0 ∈ scores := by
              have hjl : j < scores.length := by simpa [hscores] using hj
              rw [getD_bounded _ _ _ hjl]
              exact List.get_mem _ _ _
            have hle := mem_le_foldl_max scores 0 _ hjs
            rw [← scanBest_snd scores 0 none 0] at hle
            rw [← hgd, ← h2]
            calc hitCount (keywordList issueText) (paras.getD j [])
                = scores.getD j 0 := by
                  rw [hscores]; exact (getD_map_hit _ _ _ hj).symm
              _ ≤ (scanBest scores 0 none 0).2 := hle
          · intro j hj
            have hjlt : j < paras.length := lt_trans hj hlen
            have := h4 j hj
            rw [← hgd, ← h2]
            calc hitCount (keywordList issueText) (paras.getD j [])
                = scores.getD j 0 := by
                  rw [hscores]; exact (getD_map_hit _ _ _ hjlt).symm
              _ < (scanBest scores 0 none 0).2 := by
                  rw [getD_irrel scores j 0 0 (by simpa [hscores] using hjlt)] at this ⊢
                  exact this
      · rw [if_neg hpos] at hi; cases hi
  · intro hz
    by_cases hk : (keywordList issueText).isEmpty
    · simp [keyword_anchor, hk]
    · have hk' : (keywordList issueText).isEmpty = false := by simpa using hk
      simp only [keyword_anchor, hk', Bool.false_eq_true, if_false]
      set scores := paras.map (fun p => hitCount (keywordList issueText) p) with hscores
      have hfold : (scanBest scores 0 none 0).2 = 0 := by
        rw [scanBest_snd]
        refine le_antisymm (foldl_max_le_of scores 0 0 (le_refl 0) ?_) (foldl_max_init_le scores 0)
        intro x hx
        rcases List.mem_iff_get.1 hx with ⟨⟨j, hj⟩, rfl⟩
        have hjp : j < paras.length := by simpa [hscores] using hj
        rw [← getD_bounded scores j 0 hj]
        have hval : scores.getD j 0 = hitCount (keywordList issueText) (paras.getD j []) := by
          rw [hscores]; exact getD_map_hit _ _ _ hjp
        rw [hval]
        exact le_of_eq (hz j hjp)
      rw [if_neg (by rw [hfold]; omega)]
  · intro hs
    have : keywordList issueText = [] := by
      simp [keywordList, hs]
    simp [keyword_anchor, this]
  · intro ha hn
    have : keywordList issueText = [] := by
      simp [keywordList, ha, hn]
    simp [keyword_anchor, this]
  · intro hk ⟨j, hj, hjpos⟩
    have hk' : (keywordList issueText).isEmpty = false := by
      cases h : keywordList issueText with
      | nil => exact absurd h hk
      | cons a t => simp [h]
    simp only [keyword_anchor, hk', Bool.false_eq_true, if_false]
    set scores := paras.map (fun p => hitCount (keywordList issueText) p) with hscores
    have hpos : 0 < (scanBest scores 0 none 0).2 := by
      rw [scanBest_snd]
      have hjl : j < scores.length := by simpa [hscores] using hj
      have hmem : scores.getD j 0 ∈ scores := by
        rw [getD_bounded _ _ _ hjl]; exact List.get_mem _ _ _
      have := mem_le_foldl_max scores 0 _ hmem
      have hval : scores.getD j 0 = hitCount (keywordList issueText) (paras.getD j []) := by
        rw [hscores]; exact getD_map_hit _ _ _ hj
      omega
    rw [if_pos hpos]
    rcases scanBest_cases scores 0 none 0 with heq | ⟨off, hofflt, h1, h2, h3, h4⟩
    · exfalso; rw [heq] at hpos; exact absurd hpos (by omega)
    · exact ⟨0 + off, h1⟩
  · intro paras2
    have hkl : keywordList (s2l "Missing explicit signatory section.") = [] := by decide
    simp [keyword_anchor, hkl]
  · intro paras2
    have hkl : keywordList (s2l "Document does not explicitly reference ADGM.") = [] := by
      decide
    simp [keyword_anchor, hkl]

/-- Closed instantiation of `keyword_anchor_spec` (spec scenario A): a
jurisdiction issue anchors onto the paragraph mentioning UAE courts. -/
theorem keyword_anchor_spec_witness :
    ∃ i, keyword_anchor [s2l "This Agreement shall be governed by UAE Federal Courts."]
      (s2l "Jurisdiction references non-ADGM courts.") = some i :=
  (keyword_anchor_spec [s2l "This Agreement shall be governed by UAE Federal Courts."]
      (s2l "Jurisdiction references non-ADGM courts.")).2.2.2.2.1
    (by decide) ⟨0, by decide, by decide⟩

/-- `_semantic_anchor` (docx_annotator.py lines 59-83), abstracted over the
embedding oracle: `query` is the issue text (lines 61-63 guard), `scores` is
the per-paragraph normalized-dot-product similarity list computed at lines
68-74 (one rational score per paragraph; the empty-paragraph-list guard of
lines 64-66 is the `scores.isEmpty` case). The `except` path of lines 81-82
(embedding failure) also returns no anchor and is absorbed by the oracle
abstraction. The scan keeps the first strict improvement over the initial
best score `-1.0`; the source's `best_idx is not None and best_score >= 0.2`
guard is written as a single conditional, which agrees with it in every case
because a `none` best index is returned unchanged. -/
def semantic_anchor (query : List Char) (scores : List ℚ) : Option Nat :=
  if query.isEmpty then none
  else if scores.isEmpty then none
  else if 1/5 ≤ (scanBest scores 0 none (-1)).2 then (scanBest scores 0 none (-1)).1
  else none

/-- C5. The semantic strategy returns index `i` exactly when the issue text
is non-empty, `i` is a paragraph index whose similarity score is maximal over
all paragraphs, first among the maximisers, and the maximum clears the `0.2`
threshold (inclusively). The final two conjuncts show the boundary on
concrete inputs: a single paragraph with score exactly `0.2` is accepted and
one with score `0.19999` is rejected. -/
theorem semantic_anchor_spec (query : List Char) (scores : List ℚ) :
    (∀ i, semantic_anchor query scores = some i ↔
        query ≠ [] ∧ i < scores.length ∧ 1/5 ≤ scores.getD i 0 ∧
        (∀ j, j < scores.length → scores.getD j 0 ≤ scores.getD i 0) ∧
        (∀ j, j < i → scores.getD j 0 < scores.getD i 0))
    ∧ semantic_anchor (s2l "q") [1/5] = some 0
    ∧ semantic_anchor (s2l "q") [19999/100000] = none := by
  refine ⟨?_, by norm_num [semantic_anchor, scanBest, s2l],
    by norm_num [semantic_anchor, scanBest, s2l]⟩
  intro i
  by_cases hq : query.isEmpty
  · simp only [semantic_anchor, hq, if_true]
    constructor
    · intro h; cases h
    · rintro ⟨hne, -⟩
      exact absurd (List.isEmpty_iff.1 hq) hne
  · have hq' : query.isEmpty = false := by simpa using hq
    have hqne : query ≠ [] := by
      intro h; rw [h] at hq'; cases hq'
    by_cases hs : scores.isEmpty
    · simp only [semantic_anchor, hq', Bool.false_eq_true, if_false, hs, if_true]
      constructor
      · intro h; cases h
      · rintro ⟨-, hi, -⟩
        rw [List.isEmpty_iff.1 hs] at hi
        simp at hi
    · have hs' : scores.isEmpty = false := by simpa using hs
      simp only [semantic_anchor, hq', hs', Bool.false_eq_true, if_false]
      constructor
      · intro h
        by_cases hth : (1:ℚ)/5 ≤ (scanBest scores 0 none (-1)).2
        · rw [if_pos hth] at h
          rcases scanBest_cases scores 0 none (-1) with heq | ⟨off, hofflt, h1, h2, h3, h4⟩
          · rw [heq] at h; cases h
          · rw [h1] at h
            have hio : i = off := by
              have := Option.some.inj h; omega
            subst hio
            have hg0 : scores.getD i 0 = (scanBest scores 0 none (-1)).2 := by
              rw [h2]; exact getD_irrel scores i 0 (-1) hofflt
            refine ⟨hqne, hofflt, by rw [hg0]; exact hth, ?_, ?_⟩
            · intro j hj
              have hmem : scores.getD j 0 ∈ scores := by
                rw [getD_bounded _ _ _ hj]; exact List.get_mem _ _ _
              have := mem_le_foldl_max scores (-1) _ hmem
              rw [← scanBest_snd scores 0 none (-1)] at this
              rw [hg0]; exact this
            · intro j hj
              have hjlt : j < scores.length := lt_trans hj hofflt
              have := h4 j hj
              rw [getD_irrel scores j (-1) 0 hjlt] at this
              rw [hg0]; exact this
        · rw [if_neg hth] at h; cases h
      · rintro ⟨-, hi, hth, hmax, hmin⟩
        have hsnd : (scanBest scores 0 none (-1)).2 = scores.getD i 0 := by
          rw [scanBest_snd]
          refine le_antisymm (foldl_max_le_of scores (-1) _ ?_ ?_) ?_
          · calc (-1 : ℚ) ≤ 1/5 := by norm_num
              _ ≤ scores.getD i 0 := hth
          · intro x hx
            rcases List.mem_iff_get.1 hx with ⟨⟨j, hj⟩, rfl⟩
            rw [← getD_bounded scores j 0 hj]
            exact hmax j hj
          · have hmem : scores.getD i 0 ∈ scores := by
              rw [getD_bounded _ _ _ hi]; exact List.get_mem _ _ _
            exact mem_le_foldl_max scores (-1) _ hmem
        rcases scanBest_cases scores 0 none (-1) with heq | ⟨off, hofflt, h1, h2, h3, h4⟩
        · exfalso
          have hx : scores.getD i 0 = -1 := by rw [← hsnd, heq]
          rw [hx] at hth
          norm_num at hth
        · have hoffi : off = i := by
            rcases lt_trichotomy off i with hlt | heqi | hgt
            · exfalso
              have := hmin off hlt
              rw [getD_irrel scores off 0 (-1) hofflt, ← h2, hsnd] at this
              exact lt_irrefl _ this
            · exact heqi
            · exfalso
              have := h4 i hgt
              rw [getD_irrel scores i (-1) 0 hi, hsnd] at this
              exact lt_irrefl _ this
          rw [if_pos (by rw [hsnd]; exact hth), h1, hoffi]
          simp

/-- Closed instantiation of `semantic_anchor_spec`: on two paragraphs with
scores `0.1` and `0.2`, the second is returned. -/
theorem semantic_anchor_spec_witness :
    semantic_anchor (s2l "q") [1/10, 1/5] = some 1 :=
  ((semantic_anchor_spec (s2l "q") [1/10, 1/5]).1 1).mpr
    ⟨by decide, by norm_num, by norm_num, by
      intro j hj
      match j with
      | 0 => norm_num
      | 1 => norm_num
      | k + 2 => simp at hj, by
      intro j hj
      match j with
      | 0 => norm_num
      | k + 1 => omega⟩

/-- The full per-issue strategy cascade of `annotate_docx` (lines 250-264):
substring first, then keyword, then semantic. `semScores` is the embedding
oracle giving each issue its per-paragraph similarity list. -/
def anchorOf (paras : List (List Char)) (semScores : IssueItem → List ℚ) (it : IssueItem) :
    Option Nat :=
  match substring_anchor paras it with
  | some i => some i
  | none =>
    match keyword_anchor paras it.issue with
    | some i => some i
    | none => semantic_anchor it.issue (semScores it)

/-- The routing loop of `annotate_docx` (lines 250-268): each issue is sent
either to the anchored pair list (paragraph index, issue) or to the
unanchored list, in input order. -/
def routeIssues (anchor : IssueItem → Option Nat) :
    List IssueItem → List (Nat × IssueItem) × List IssueItem
  | [] => ([], [])
  | it :: rest =>
    let r := routeIssues anchor rest
    match anchor it with
    | some i => ((i, it) :: r.1, r.2)
    | none => (r.1, it :: r.2)

/-- The consolidated appendix of `annotate_docx` (lines 301-322):
`enumerate(issues, start=1)`, one numbered entry per issue. -/
def appendixEntries (issues : List IssueItem) : List (Nat × IssueItem) :=
  issues.enumFrom 1

/-- Distinct anchored paragraph keys in ascending order: the iteration order
`sorted(paragraph_to_issues.items())` of line 274. -/
def sortedKeys (pairs : List (Nat × IssueItem)) : List Nat :=
  List.insertionSort (· ≤ ·) (pairs.map Prod.fst).dedup

/-- The issues grouped under one paragraph key, in arrival order (the dict
`setdefault(...).append(...)` of line 266). -/
def groupOf (pairs : List (Nat × IssueItem)) (k : Nat) : List IssueItem :=
  (pairs.filter (fun p => decide (p.1 = k))).map Prod.snd

/-- The sorted paragraph-to-issues grouping consumed by the placement loop. -/
def sortedGroups (pairs : List (Nat × IssueItem)) : List (Nat × List IssueItem) :=
  (sortedKeys pairs).map (fun k => (k, groupOf pairs k))

theorem routeIssues_eq (anchor : IssueItem → Option Nat) (issues : List IssueItem) :
    routeIssues anchor issues
      = (issues.filterMap (fun it => (anchor it).map (fun i => (i, it))),
         issues.filter (fun it => (anchor it).isNone)) := by
  induction issues with
  | nil => rfl
  | cons it rest ih =>
    cases h : anchor it with
    | none => simp [routeIssues, h, ih, List.filterMap_cons, List.filter_cons]
    | some i => simp [routeIssues, h, ih, List.filterMap_cons, List.filter_cons]

theorem routeIssues_length (anchor : IssueItem → Option Nat) :
    ∀ issues : List IssueItem,
      (routeIssues anchor issues).1.length + (routeIssues anchor issues).2.length
        = issues.length := by
  intro issues
  induction issues with
  | nil => rfl
  | cons it rest ih =>
    cases h : anchor it with
    | none =>
      simp only [routeIssues, h]
      simp only [List.length_cons]
      omega
    | some i =>
      simp only [routeIssues, h]
      simp only [List.length_cons]
      omega

theorem sortedGroups_sum (pairs : List (Nat × IssueItem)) :
    ((sortedGroups pairs).map (fun g => g.2.length)).sum = pairs.length := by
  simp only [sortedGroups, sortedKeys, List.map_map]
  rw [List.Perm.sum_eq ((List.perm_insertionSort (· ≤ ·) (pairs.map Prod.fst).dedup).map
      ((fun g : Nat × List IssueItem => g.2.length) ∘ (fun k => (k, groupOf pairs k))))]
  have h2 : ((fun g : Nat × List IssueItem => g.2.length) ∘ (fun k => (k, groupOf pairs k)))
      = fun k => (pairs.map Prod.fst).count k := by
    funext k
    simp only [Function.comp_apply, groupOf, List.length_map]
    rw [← List.countP_eq_length_filter, List.count_eq_countP, List.countP_map]
    refine List.countP_congr ?_
    intro p hp
    simp
  rw [h2, List.sum_map_count_dedup_eq_length, List.length_map]

/-- C1. Coverage of the routing and the appendix: every issue lands in
exactly one of the anchored pair list or the unanchored list (the two lists
are precisely the issues on which the strategy cascade succeeds, resp.
fails, each kept in original order), their sizes sum to the number of
issues, and the consolidated appendix has exactly one entry per issue,
numbered consecutively from 1 in the original order; moreover the grouping
of the anchored pairs into per-paragraph groups loses and duplicates
nothing: the group sizes sum to the number of anchored issues. -/
theorem annotate_routing_spec (paras : List (List Char))
    (semScores : IssueItem → List ℚ) (issues : List IssueItem) :
    (routeIssues (anchorOf paras semScores) issues).1.length
        + (routeIssues (anchorOf paras semScores) issues).2.length = issues.length
    ∧ (routeIssues (anchorOf paras semScores) issues).1
        = issues.filterMap (fun it => (anchorOf paras semScores it).map (fun i => (i, it)))
    ∧ (routeIssues (anchorOf paras semScores) issues).2
        = issues.filter (fun it => (anchorOf paras semScores it).isNone)
    ∧ ((sortedGroups (routeIssues (anchorOf paras semScores) issues).1).map
        (fun g => g.2.length)).sum
        = (routeIssues (anchorOf paras semScores) issues).1.length
    ∧ (appendixEntries issues).length = issues.length
    ∧ (∀ k, k < issues.length →
        (appendixEntries issues).getD k (0, dummyIssue)
          = (k + 1, issues.getD k dummyIssue)) := by
  refine ⟨routeIssues_length _ issues, ?_, ?_, sortedGroups_sum _, ?_, ?_⟩
  · rw [routeIssues_eq]
  · rw [routeIssues_eq]
  · simp [appendixEntries]
  · intro k hk
    have hk' : k < (appendixEntries issues).length := by
      simpa [appendixEntries] using hk
    rw [getD_bounded _ _ _ hk', getD_bounded _ _ _ hk]
    simp only [appendixEntries, List.get_eq_getElem, List.getElem_enumFrom]
    congr 1
    omega

/-- Closed instantiation of `annotate_routing_spec` on a single unanchorable
issue: the appendix numbers it 1 and the unanchored side receives it. -/
theorem annotate_routing_spec_witness :
    (appendixEntries [dummyIssue]).getD 0 (0, dummyIssue) = (1, dummyIssue) :=
  (annotate_routing_spec [] (fun _ => []) [dummyIssue]).2.2.2.2.2 0 (by decide)

/-- Comment-id allocation of `_add_word_comment` (docx_annotator.py lines
169-177): `next_id` starts at 0, is raised to the maximum over the existing
ids, then incremented. `ids` models the `w:id` values of the comments
currently in the document's comment store. -/
def nextCommentId (ids : List Int) : Int := ids.foldl max 0 + 1

/-- One annotation pass appending `n` structured comments: each
`_add_word_comment` call computes the next id from the current store and
appends the new comment to the store (docx_annotator.py line 193), so later
calls in the same pass see the ids created earlier. Returns the final store
and the list of newly created ids in creation order. -/
def runCommentPass (store : List Int) : Nat → List Int × List Int
  | 0 => (store, [])
  | n + 1 =>
    let c := nextCommentId store
    let r := runCommentPass (store ++ [c]) n
    (r.1, c :: r.2)

theorem lt_nextCommentId (store : List Int) (x : Int) (hx : x ∈ store) :
    x < nextCommentId store := by
  have := mem_le_foldl_max store 0 x hx
  unfold nextCommentId
  omega

/-- C2 counterexample. The claim says a document with no existing comments
allocates id 0; the code allocates `max(0, existing) + 1 = 1` on an empty
comment store. -/
theorem comment_id_empty_store_cex :
    nextCommentId [] = 1 ∧ (1 : Int) ≠ 0 := by
  constructor
  · rfl
  · decide

/-- C2 amended. A new structured comment's id is one greater than the
maximum of 0 and the existing ids (so 1, not 0, on a document with no
comments); consequently within one annotation pass the newly produced ids
are strictly increasing, pairwise distinct, and strictly greater than every
pre-existing id. -/
theorem comment_ids_spec (store : List Int) (n : Nat) :
    (runCommentPass store n).1 = store ++ (runCommentPass store n).2
    ∧ ((runCommentPass store n).2).Pairwise (· < ·)
    ∧ (∀ x ∈ store, ∀ y ∈ (runCommentPass store n).2, x < y)
    ∧ ((runCommentPass store n).2).Nodup
    ∧ (0 < n → ((runCommentPass store n).2).headD 0 = store.foldl max 0 + 1) := by
  induction n generalizing store with
  | zero =>
    refine ⟨by simp [runCommentPass], by simp [runCommentPass], ?_, by simp [runCommentPass], ?_⟩
    · intro x hx y hy
      simp [runCommentPass] at hy
    · intro h; omega
  | succ n ih =>
    rcases ih (store ++ [nextCommentId store]) with ⟨ih1, ih2, ih3, ih4, ih5⟩
    have hstep : runCommentPass store (n + 1)
        = ((runCommentPass (store ++ [nextCommentId store]) n).1,
           nextCommentId store :: (runCommentPass (store ++ [nextCommentId store]) n).2) := rfl
    rw [hstep]
    refine ⟨?_, ?_, ?_, ?_, ?_⟩
    · rw [ih1]
      simp
    · rw [List.pairwise_cons]
      refine ⟨?_, ih2⟩
      intro y hy
      exact ih3 (nextCommentId store) (by simp) y hy
    · intro x hx y hy
      rcases List.mem_cons.1 hy with rfl | hy
      · exact lt_nextCommentId store x hx
      · exact ih3 x (List.mem_append_left _ hx) y hy
    · rw [List.nodup_cons]
      refine ⟨?_, ih4⟩
      intro hmem
      have := ih3 (nextCommentId store) (by simp) _ hmem
      omega
    · intro _
      rfl

/-- Closed instantiation of `comment_ids_spec`: a pass of two comments over
a store holding id 5 starts numbering at 6. -/
theorem comment_ids_spec_witness :
    0 < 2 ∧ ((runCommentPass ([5] : List Int) 2).2).headD 0
      = ([5] : List Int).foldl max 0 + 1 :=
  ⟨by decide, (comment_ids_spec [5] 2).2.2.2.2 (by decide)⟩

/-- Outcome of one `doc.save(path)` attempt: success, `PermissionError`, or
any other exception. -/
inductive SaveOutcome
  | ok
  | permErr
  | otherErr
deriving DecidableEq

/-- Primary output path of `annotate_docx` (lines 324-326): the input file
name with the fixed `_reviewed` suffix, inside the output directory. -/
def reviewedPath (dir name ext : String) : String :=
  dir ++ "/" ++ name ++ "_reviewed" ++ ext

/-- Retry output path of `annotate_docx` (lines 331-332): the name
uniquified with a timestamp-plus-random suffix, supplied here as `uniq`. -/
def uniquifiedPath (dir name ext uniq : String) : String :=
  dir ++ "/" ++ name ++ "_reviewed_" ++ uniq ++ ext

/-- Save logic of `annotate_docx` (lines 327-334): try the primary path; on
`PermissionError` retry exactly once on the uniquified path; any other
failure of the first attempt, and any failure of the retry, propagates.
The second component counts the save attempts made. -/
def saveWithRetry (save : String → SaveOutcome) (dir name ext uniq : String) :
    Except SaveOutcome String × Nat :=
  match save (reviewedPath dir name ext) with
  | .ok => (.ok (reviewedPath dir name ext), 1)
  | .permErr =>
    match save (uniquifiedPath dir name ext uniq) with
    | .ok => (.ok (uniquifiedPath dir name ext uniq), 2)
    | e => (.error e, 2)
  | .otherErr => (.error .otherErr, 1)

/-- C8. The writer makes at most two save attempts; a second attempt happens
exactly when the first fails with `PermissionError`; a returned path is one
on which `save` succeeded (so the returned path is the path actually
written); a successful first attempt returns the fixed-suffix path after one
attempt; a `PermissionError` followed by a successful retry returns the
uniquified path after two attempts; a failing retry propagates its error
with no third attempt; and a non-permission failure of the first attempt
propagates immediately. -/
theorem save_retry_spec (save : String → SaveOutcome) (dir name ext uniq : String) :
    (saveWithRetry save dir name ext uniq).2 ≤ 2
    ∧ ((saveWithRetry save dir name ext uniq).2 = 2
        ↔ save (reviewedPath dir name ext) = SaveOutcome.permErr)
    ∧ (∀ p, (saveWithRetry save dir name ext uniq).1 = Except.ok p → save p = SaveOutcome.ok)
    ∧ (save (reviewedPath dir name ext) = SaveOutcome.ok →
        saveWithRetry save dir name ext uniq = (Except.ok (reviewedPath dir name ext), 1))
    ∧ (save (reviewedPath dir name ext) = SaveOutcome.permErr →
        save (uniquifiedPath dir name ext uniq) = SaveOutcome.ok →
        saveWithRetry save dir name ext uniq = (Except.ok (uniquifiedPath dir name ext uniq), 2))
    ∧ (save (reviewedPath dir name ext) = SaveOutcome.permErr →
        save (uniquifiedPath dir name ext uniq) ≠ SaveOutcome.ok →
        saveWithRetry save dir name ext uniq
          = (Except.error (save (uniquifiedPath dir name ext uniq)), 2))
    ∧ (save (reviewedPath dir name ext) = SaveOutcome.otherErr →
        saveWithRetry save dir name ext uniq = (Except.error SaveOutcome.otherErr, 1)) := by
  rcases h1 : save (reviewedPath dir name ext) with - | - | - <;>
    rcases h2 : save (uniquifiedPath dir name ext uniq) with - | - | - <;>
    refine ⟨?_, ?_, ?_, ?_, ?_, ?_, ?_⟩ <;>
    simp only [saveWithRetry, h1, h2] <;>
    first
      | omega
      | simp [h1, h2]
      | (intro p hp
         first
           | (rw [← Except.ok.inj hp]; exact h1)
           | (rw [← Except.ok.inj hp]; exact h2)
           | cases hp)
      | (intro h; cases h)
      | (intro ha hb; first | rfl | (exfalso; exact hb rfl) | cases ha | cases hb)

/-- Closed instantiation of `save_retry_spec`: a save function that rejects
the primary path with a permission error and accepts the retry path yields
the uniquified path after exactly two attempts. -/
theorem save_retry_spec_witness :
    saveWithRetry
      (fun p => if p = reviewedPath "out" "doc" ".docx" then SaveOutcome.permErr
                else SaveOutcome.ok)
      "out" "doc" ".docx" "20250101-t"
      = (Except.ok (uniquifiedPath "out" "doc" ".docx" "20250101-t"), 2) :=
  (save_retry_spec
      (fun p => if p = reviewedPath "out" "doc" ".docx" then SaveOutcome.permErr
                else SaveOutcome.ok)
      "out" "doc" ".docx" "20250101-t").2.2.2.2.1 (by decide) (by decide)

/-- Errors of the retrieval layer: the structured "index was never built"
error (`RuntimeError("FAISS index not found...")`, retriever.py line 20),
the distinct failure of opening a missing metadata file, and an
out-of-range list access during `search`. -/
inductive RetrieverError
  | indexUnavailable
  | fileMissing
  | indexError
deriving DecidableEq

/-- Presence of the three persisted corpus files that
`FaissRetriever.__init__` (retriever.py lines 14-26) touches. -/
structure IndexStore where
  indexPresent : Bool
  chunksPresent : Bool
  metaPresent : Bool
deriving DecidableEq

/-- `FaissRetriever.__init__` (retriever.py lines 14-26): raise the
structured index-unavailable error when `index.faiss` or `chunks.json` is
absent; otherwise the three files are read (a missing `meta.json` at that
point surfaces as an ordinary file error, not as index-unavailable). -/
def faissRetrieverInit (fs : IndexStore) : Except RetrieverError Unit :=
  if !(fs.indexPresent && fs.chunksPresent) then Except.error RetrieverError.indexUnavailable
  else if !fs.metaPresent then Except.error RetrieverError.fileMissing
  else Except.ok ()

/-- Per-chunk metadata row (`meta.json` entries, written by ingestion and
read by `search`): `source_path` is accessed unconditionally, `title` and
`source_url` through `.get` with defaults. -/
structure ChunkMeta where
  source_path : List Char
  chunk_index : Nat
  title : Option (List Char)
  source_url : Option (List Char)
deriving DecidableEq

/-- `os.path.basename`: the part of the path after the last slash. -/
def baseName (p : List Char) : List Char :=
  p.foldl (fun acc c => if c = '/' then [] else acc ++ [c]) []

/-- One result row of `FaissRetriever.search` (retriever.py lines 37-44). -/
structure SearchResult where
  score : ℚ
  chunk : List Char
  ref_id : List Char
  source_path : List Char
  title : List Char
  source_url : Option (List Char)
deriving DecidableEq

/-- Build one search result from a score, the chunk text and its metadata
row (retriever.py lines 37-44); the `ref_id` is
`basename(source_path)#chunk-{chunk_index}`. -/
def mkResult (s : ℚ) (chunk : List Char) (m : ChunkMeta) : SearchResult :=
  { score := s
    chunk := chunk
    ref_id := baseName m.source_path ++ s2l "#chunk-" ++ Nat.toDigits 10 m.chunk_index
    source_path := m.source_path
    title := m.title.getD (baseName m.source_path)
    source_url := m.source_url }

/-- Python list indexing with an integer index (negative indices address
from the end). -/
def pyGet {α : Type} (l : List α) (v : Int) : Option α :=
  if 0 ≤ v then l.get? v.toNat
  else if (-v).toNat ≤ l.length then l.get? (l.length - (-v).toNat)
  else none

/-- `FaissRetriever.search` (retriever.py lines 28-45), abstracted over the
embedding call and the FAISS query: `raw` is the `(score, index)` row list
returned by `self.index.search` for the query (FAISS emits exactly `top_k`
rows, padding with index `-1` when fewer vectors are indexed). A `-1` row is
skipped; any other index addresses both parallel arrays at the same offset;
an out-of-range index would be a Python `IndexError`, modelled as
`indexError`. -/
def search (chunks : List (List Char)) (meta : List ChunkMeta) :
    List (ℚ × Int) → Except RetrieverError (List SearchResult)
  | [] => Except.ok []
  | p :: rest =>
    if p.2 = -1 then search chunks meta rest
    else
      match pyGet chunks p.2, pyGet meta p.2 with
      | some c, some m =>
        match search chunks meta rest with
        | Except.ok rs => Except.ok (mkResult p.1 c m :: rs)
        | Except.error e => Except.error e
      | _, _ => Except.error RetrieverError.indexError

theorem search_never_indexUnavailable (chunks : List (List Char)) (meta : List ChunkMeta) :
    ∀ raw, search chunks meta raw ≠ Except.error RetrieverError.indexUnavailable := by
  intro raw
  induction raw with
  | nil => intro h; cases h
  | cons p rest ih =>
    by_cases hneg : p.2 = -1
    · simp only [search, hneg, if_true]
      exact ih
    · simp only [search, hneg, if_neg (by simpa using hneg)]
      cases hc : pyGet chunks p.2 with
      | none => intro h; cases h
      | some c =>
        cases hm : pyGet meta p.2 with
        | none => intro h; cases h
        | some m =>
          cases hr : search chunks meta rest with
          | ok rs => intro h; cases h
          | error e =>
            intro h
            apply ih
            rw [hr]
            have he := Except.error.inj h
            rw [he]

/-- C9. The retriever constructor fails with the structured
index-unavailable error exactly when a persisted index file (`index.faiss`
or `chunks.json`) is absent; with all persisted corpus files present,
construction succeeds; and no `search` call can produce the
index-unavailable error. -/
theorem retriever_init_spec (fs : IndexStore) :
    (faissRetrieverInit fs = Except.error RetrieverError.indexUnavailable
      ↔ ¬(fs.indexPresent = true ∧ fs.chunksPresent = true))
    ∧ (fs.indexPresent = true → fs.chunksPresent = true → fs.metaPresent = true →
        faissRetrieverInit fs = Except.ok ())
    ∧ ∀ chunks meta raw,
        search chunks meta raw ≠ Except.error RetrieverError.indexUnavailable := by
  refine ⟨?_, ?_, fun chunks meta raw => search_never_indexUnavailable chunks meta raw⟩
  · rcases fs with ⟨ip, cp, mp⟩
    cases ip <;> cases cp <;> cases mp <;> simp [faissRetrieverInit]
  · intro hi hc hm
    simp [faissRetrieverInit, hi, hc, hm]

/-- Closed instantiation of `retriever_init_spec`: with all three files
present, construction succeeds. -/
theorem retriever_init_spec_witness :
    faissRetrieverInit ⟨true, true, true⟩ = Except.ok () :=
  (retriever_init_spec ⟨true, true, true⟩).2.1 rfl rfl rfl

/-- Default metadata row, used only as a `getD` fallback in statements. -/
def dfltMeta : ChunkMeta := ⟨[], 0, none, none⟩

theorem pyGet_nonneg {α : Type} (l : List α) (v : Int) (d : α) (h0 : 0 ≤ v)
    (hlt : v.toNat < l.length) : pyGet l v = some (l.getD v.toNat d) := by
  unfold pyGet
  rw [if_pos h0, getD_bounded _ _ _ hlt]
  exact List.get?_eq_get hlt

theorem search_ok (chunks : List (List Char)) (meta : List ChunkMeta) :
    ∀ raw : List (ℚ × Int),
      (∀ p ∈ raw, p.2 = -1 ∨ (0 ≤ p.2 ∧ p.2.toNat < chunks.length ∧ p.2.toNat < meta.length)) →
      search chunks meta raw
        = Except.ok ((raw.filter (fun p => p.2 != -1)).map
            (fun p => mkResult p.1 (chunks.getD p.2.toNat []) (meta.getD p.2.toNat dfltMeta))) := by
  intro raw
  induction raw with
  | nil => intro _; rfl
  | cons p rest ih =>
    intro hvalid
    have hrest := fun q hq => hvalid q (List.mem_cons_of_mem p hq)
    rcases hvalid p (List.mem_cons_self p rest) with hneg | ⟨h0, hc, hm⟩
    · simp only [search, hneg, if_true, List.filter_cons]
      have hf : ((-1 : Int) != -1) = false := by decide
      rw [hf]
      simp only [Bool.false_eq_true, if_false]
      exact ih hrest
    · have hne : ¬ p.2 = -1 := by
        intro h; rw [h] at h0; omega
      simp only [search, if_neg hne]
      rw [pyGet_nonneg chunks p.2 [] h0 hc, pyGet_nonneg meta p.2 dfltMeta h0 hm, ih hrest]
      simp only [List.filter_cons]
      have : (p.2 != -1) = true := by
        simpa using hne
      rw [this]
      simp

/-- C10. Under the FAISS output contract (each row's index is either the
`-1` placeholder or a valid offset into both parallel arrays, and at most
`top_k` rows are produced), `search` succeeds, returns at most `top_k`
results, skips exactly the placeholder rows (so fewer indexed vectors just
shorten the result list), and builds every returned row from the chunk and
the metadata at the same array offset. -/
theorem search_spec (chunks : List (List Char)) (meta : List ChunkMeta)
    (raw : List (ℚ × Int)) (top_k : Nat) :
    raw.length ≤ top_k →
    (∀ p ∈ raw, p.2 = -1 ∨ (0 ≤ p.2 ∧ p.2.toNat < chunks.length ∧ p.2.toNat < meta.length)) →
    ∃ rs, search chunks meta raw = Except.ok rs
      ∧ rs.length ≤ top_k
      ∧ rs.length = (raw.filter (fun p => p.2 != -1)).length
      ∧ rs = (raw.filter (fun p => p.2 != -1)).map
          (fun p => mkResult p.1 (chunks.getD p.2.toNat []) (meta.getD p.2.toNat dfltMeta)) := by
  intro hk hvalid
  refine ⟨_, search_ok chunks meta raw hvalid, ?_, by simp, rfl⟩
  calc ((raw.filter (fun p => p.2 != -1)).map
          (fun p => mkResult p.1 (chunks.getD p.2.toNat []) (meta.getD p.2.toNat dfltMeta))).length
      = (raw.filter (fun p => p.2 != -1)).length := by simp
    _ ≤ raw.length := List.length_filter_le _ _
    _ ≤ top_k := hk

/-- Closed instantiation of `search_spec`: two raw rows, one of them the
`-1` placeholder, produce a single result taken from offset 0 of both
arrays. -/
theorem search_spec_witness :
    ∃ rs, search [s2l "chunk0"] [⟨s2l "a/b.pdf", 0, none, none⟩] [(1, 0), (0, -1)]
        = Except.ok rs
      ∧ rs.length ≤ 2
      ∧ rs.length = ([((1:ℚ), (0:Int)), (0, -1)].filter (fun p => p.2 != -1)).length
      ∧ rs = ([((1:ℚ), (0:Int)), (0, -1)].filter (fun p => p.2 != -1)).map
          (fun p => mkResult p.1 ([s2l "chunk0"].getD p.2.toNat [])
            ([(⟨s2l "a/b.pdf", 0, none, none⟩ : ChunkMeta)].getD p.2.toNat dfltMeta)) :=
  search_spec [s2l "chunk0"] [⟨s2l "a/b.pdf", 0, none, none⟩] [(1, 0), (0, -1)] 2
    (by decide) (by decide)

/-- One retrieval hit as consumed by `cite` (compliance_checker.py lines
27-36): the fields of the dictionaries produced by `search`. -/
structure Hit where
  ref_id : List Char
  chunk : List Char
  source_url : Option (List Char)
deriving DecidableEq

/-- Evidence built from a hit (compliance_checker.py lines 32 and 36):
snippet truncated to 400 characters. -/
def evOf (h : Hit) : IssueEvidence :=
  ⟨h.ref_id, h.chunk.take 400, h.source_url⟩

/-- The scan inside `cite` (lines 28-32): first hit whose `ref_id` is
non-empty and not yet consumed. -/
def firstUnused (used : List (List Char)) : List Hit → Option Hit
  | [] => none
  | h :: t =>
    if !h.ref_id.isEmpty && !(decide (h.ref_id ∈ used)) then some h
    else firstUnused used t

/-- The `cite` closure of `_heuristic_issues` (compliance_checker.py lines
26-37): prefer a hit with a fresh non-empty `ref_id` (recording it in
`used_refs`); when every hit is empty-id or already consumed, fall back to
the first hit without recording; no hits yields no evidence. Returns the
evidence list and the updated `used_refs`. -/
def cite (used : List (List Char)) (hits : List Hit) :
    List IssueEvidence × List (List Char) :=
  match firstUnused used hits with
  | some h => ([evOf h], h.ref_id :: used)
  | none =>
    match hits with
    | [] => ([], used)
    | h :: _ => ([evOf h], used)

/-- A document's citation-accumulation pass: the successive `cite` calls of
`_heuristic_issues` (lines 47, 62, 77) threading one `used_refs` set.
Returns the evidence list of each call and the final `used_refs`. -/
def citeSeq (used : List (List Char)) :
    List (List Hit) → List (List IssueEvidence) × List (List Char)
  | [] => ([], used)
  | hs :: rest =>
    let r := cite used hs
    let r2 := citeSeq r.2 rest
    (r.1 :: r2.1, r2.2)

/-- The refIds attached across a pass, in order. -/
def attachedRefs (out : List (List IssueEvidence)) : List (List Char) :=
  out.join.map (fun e => e.ref_id)

/-- C4 counterexample. Two retrieval calls that both return the same single
chunk: the second call's fallback re-attaches the already consumed refId
`"a"`, so the refIds consumed within one document are not duplicate-free. -/
theorem cite_dedup_cex :
    attachedRefs (citeSeq [] [[⟨s2l "a", s2l "c", none⟩], [⟨s2l "a", s2l "c", none⟩]]).1
      = [s2l "a", s2l "a"]
    ∧ ¬ (attachedRefs
        (citeSeq [] [[⟨s2l "a", s2l "c", none⟩], [⟨s2l "a", s2l "c", none⟩]]).1).Nodup := by
  constructor
  · rfl
  · intro h
    have := List.nodup_cons.1 h
    exact this.1 (by decide)

theorem firstUnused_cond (used : List (List Char)) (h : Hit) :
    (!h.ref_id.isEmpty && !(decide (h.ref_id ∈ used))) = true
      ↔ h.ref_id ≠ [] ∧ h.ref_id ∉ used := by
  rw [Bool.and_eq_true, Bool.not_eq_true', Bool.not_eq_true', List.isEmpty_eq_false,
    decide_eq_false_iff_not]

theorem firstUnused_some (used : List (List Char)) :
    ∀ hits : List Hit, (∃ h ∈ hits, h.ref_id ≠ [] ∧ h.ref_id ∉ used) →
      ∃ h, firstUnused used hits = some h ∧ h ∈ hits ∧ h.ref_id ≠ [] ∧ h.ref_id ∉ used := by
  intro hits
  induction hits with
  | nil => rintro ⟨h, hh, -⟩; cases hh
  | cons h0 t ih =>
    rintro ⟨h, hh, hprop⟩
    by_cases hc : (!h0.ref_id.isEmpty && !(decide (h0.ref_id ∈ used))) = true
    · refine ⟨h0, ?_, List.mem_cons_self h0 t, (firstUnused_cond used h0).1 hc⟩
      simp only [firstUnused, hc, if_true]
    · have hc' : (!h0.ref_id.isEmpty && !(decide (h0.ref_id ∈ used))) = false := by
        simpa using hc
      rcases List.mem_cons.1 hh with rfl | hmem
      · exact absurd ((firstUnused_cond used h).2 hprop) hc
      · rcases ih ⟨h, hmem, hprop⟩ with ⟨h1, he, hm, hp⟩
        refine ⟨h1, ?_, List.mem_cons_of_mem h0 hm, hp⟩
        simp only [firstUnused, hc', Bool.false_eq_true, if_false]
        exact he

theorem firstUnused_none (used : List (List Char)) :
    ∀ hits : List Hit, (∀ h ∈ hits, h.ref_id = [] ∨ h.ref_id ∈ used) →
      firstUnused used hits = none := by
  intro hits
  induction hits with
  | nil => intro _; rfl
  | cons h0 t ih =>
    intro hall
    have hc' : (!h0.ref_id.isEmpty && !(decide (h0.ref_id ∈ used))) = false := by
      rcases hall h0 (List.mem_cons_self h0 t) with he | hm
      · simp [he]
      · simp [hm]
    simp only [firstUnused, hc', Bool.false_eq_true, if_false]
    exact ih (fun h hh => hall h (List.mem_cons_of_mem h0 hh))

theorem citeSeq_fresh (calls : List (List Hit)) :
    ∀ used0 : List (List Char),
      (∀ k, k < calls.length → ∃ h ∈ calls.getD k [], h.ref_id ≠ [] ∧
        h.ref_id ∉ used0 ∧
        ∀ j, j < k → h.ref_id ∉ (calls.getD j []).map (fun x => x.ref_id)) →
      (attachedRefs (citeSeq used0 calls).1).Nodup ∧
      ∀ a ∈ attachedRefs (citeSeq used0 calls).1, a ∉ used0 := by
  induction calls with
  | nil =>
    intro used0 _
    exact ⟨List.nodup_nil, fun a ha => absurd ha (by simp [citeSeq, attachedRefs])⟩
  | cons c rest ih =>
    intro used0 hfresh
    have h0 := hfresh 0 (by simp)
    simp only [List.getD_cons_zero] at h0
    have hex : ∃ h ∈ c, h.ref_id ≠ [] ∧ h.ref_id ∉ used0 := by
      rcases h0 with ⟨h, hm, hne, hnu, -⟩
      exact ⟨h, hm, hne, hnu⟩
    rcases firstUnused_some used0 c hex with ⟨hstar, hfu, hmem, hne, hnu⟩
    have hcite : cite used0 c = ([evOf hstar], hstar.ref_id :: used0) := by
      simp only [cite, hfu]
    have hrec : ∀ k, k < rest.length → ∃ h ∈ rest.getD k [], h.ref_id ≠ [] ∧
        h.ref_id ∉ hstar.ref_id :: used0 ∧
        ∀ j, j < k → h.ref_id ∉ (rest.getD j []).map (fun x => x.ref_id) := by
      intro k hk
      have := hfresh (k + 1) (by simpa using Nat.succ_lt_succ hk)
      simp only [List.getD_cons_succ] at this
      rcases this with ⟨h, hm, hne', hnu', hj⟩
      refine ⟨h, hm, hne', ?_, ?_⟩
      · intro hin
        rcases List.mem_cons.1 hin with heq | hin'
        · have hj0 := hj 0 (by omega)
          simp only [List.getD_cons_zero] at hj0
          exact hj0 (heq ▸ List.mem_map_of_mem (fun x => x.ref_id) hmem)
        · exact hnu' hin'
      · intro j hjk
        have := hj (j + 1) (by omega)
        simpa only [List.getD_cons_succ] using this
    rcases ih (hstar.ref_id :: used0) hrec with ⟨ihn, ihf⟩
    have hshape : attachedRefs (citeSeq used0 (c :: rest)).1
        = hstar.ref_id :: attachedRefs (citeSeq (hstar.ref_id :: used0) rest).1 := by
      simp [citeSeq, hcite, attachedRefs, evOf]
    rw [hshape]
    constructor
    · rw [List.nodup_cons]
      refine ⟨?_, ihn⟩
      intro hin
      exact ihf hstar.ref_id hin (List.mem_cons_self _ _)
    · intro a ha
      rcases List.mem_cons.1 ha with rfl | ha'
      · exact hnu
      · intro hu0
        exact ihf a ha' (List.mem_cons_of_mem _ hu0)

/-- C4 amended. Deduplication of consumed refIds is best-effort, not
absolute: a `cite` call attaches a fresh non-empty refId (recording it as
consumed) whenever some hit offers one; only when every hit's refId is empty
or already consumed does it fall back to re-attaching the first hit's refId
without recording it — the one way a refId can be attached twice within a
document (exhibited by `cite_dedup_cex`). A call with no hits attaches
nothing. Consequently, when every retrieval call offers at least one refId
not seen before (not initially consumed and absent from all earlier calls'
hits), the refIds attached across the document's pass are pairwise
distinct. -/
theorem cite_dedup_amended :
    (∀ used hits, (∃ h ∈ hits, h.ref_id ≠ [] ∧ h.ref_id ∉ used) →
      ∃ h, h ∈ hits ∧ h.ref_id ≠ [] ∧ h.ref_id ∉ used ∧
        cite used hits = ([evOf h], h.ref_id :: used))
    ∧ (∀ used h0 t, (∀ h ∈ h0 :: t, h.ref_id = [] ∨ h.ref_id ∈ used) →
        cite used (h0 :: t) = ([evOf h0], used))
    ∧ (∀ used, cite used [] = ([], used))
    ∧ (∀ used0 calls,
        (∀ k, k < calls.length → ∃ h ∈ calls.getD k [], h.ref_id ≠ [] ∧
          h.ref_id ∉ used0 ∧
          ∀ j, j < k → h.ref_id ∉ (calls.getD j []).map (fun x => x.ref_id)) →
        (attachedRefs (citeSeq used0 calls).1).Nodup) := by
  refine ⟨?_, ?_, ?_, ?_⟩
  · intro used hits hex
    rcases firstUnused_some used hits hex with ⟨h, hfu, hm, hne, hnu⟩
    exact ⟨h, hm, hne, hnu, by simp only [cite, hfu]⟩
  · intro used h0 t hall
    have := firstUnused_none used (h0 :: t) hall
    simp only [cite, this]
  · intro used
    rfl
  · intro used0 calls hfresh
    exact (citeSeq_fresh calls used0 hfresh).1

/-- Closed instantiation of `cite_dedup_amended`: with an empty consumed set
and one hit carrying refId `"a"`, the call attaches `"a"` and records it. -/
theorem cite_dedup_amended_witness :
    ∃ h, h ∈ [(⟨s2l "a", s2l "c", none⟩ : Hit)] ∧ h.ref_id ≠ [] ∧ h.ref_id ∉ ([] : List (List Char)) ∧
      cite [] [(⟨s2l "a", s2l "c", none⟩ : Hit)] = ([evOf h], h.ref_id :: []) :=
  cite_dedup_amended.1 [] [⟨s2l "a", s2l "c", none⟩]
    ⟨⟨s2l "a", s2l "c", none⟩, by decide, by decide, by decide⟩

/-- Python sequence indexing for `doc.paragraphs[t]` over `n` paragraphs:
nonnegative indices must be below `n`, negative indices address from the
end, anything else raises `IndexError`. -/
def pyIndex (n : Nat) (v : Int) : Option Nat :=
  if 0 ≤ v then (if v < (n : Int) then some v.toNat else none)
  else if -v ≤ (n : Int) then some (n - (-v).toNat)
  else none

/-- Key under which `annotate_docx` looks up the LLM proposal for a group
(line 285, `issues.index(iss_list[0])`): the position in the original issue
list of the first element equal to the group's first issue. -/
def groupKey (issues : List IssueItem) (g : Nat × List IssueItem) : Nat :=
  issues.findIdx (fun j => decide (j = g.2.headD dummyIssue))

/-- The placement computation of the loop at lines 274-288: for each group,
the LLM proposal for the group's first issue (when present) overrides the
per-issue paragraph index, and the chosen value subscripts the paragraph
list — an out-of-range value raises `IndexError` (modelled `Except.error`),
aborting the remaining groups. Returns the resolved positions in group
order. -/
def placeGroups (n : Nat) (issues : List IssueItem) (llmMap : Nat → Option Int) :
    List (Nat × List IssueItem) → Except Unit (List Nat)
  | [] => Except.ok []
  | g :: rest =>
    match pyIndex n ((llmMap (groupKey issues g)).getD (g.1 : Int)) with
    | none => Except.error ()
    | some t =>
      match placeGroups n issues llmMap rest with
      | Except.ok ts => Except.ok (t :: ts)
      | Except.error e => Except.error e

/-- End-to-end placement stage of `annotate_docx` (lines 250-288): route the
issues through the strategy cascade, group the anchored ones by paragraph,
then resolve each group's target against the LLM refinement map. -/
def annotatePlacements (paras : List (List Char)) (semScores : IssueItem → List ℚ)
    (llmMap : Nat → Option Int) (issues : List IssueItem) : Except Unit (List Nat) :=
  placeGroups paras.length issues llmMap
    (sortedGroups (routeIssues (anchorOf paras semScores) issues).1)

theorem pyIndex_natCast (n k : Nat) (h : k < n) : pyIndex n (k : Int) = some k := by
  unfold pyIndex
  rw [if_pos (Int.natCast_nonneg k), if_pos (by exact_mod_cast h)]
  simp

theorem pyIndex_valid (n : Nat) (v : Int) (hlo : -(n : Int) ≤ v) (hhi : v < (n : Int)) :
    ∃ t, pyIndex n v = some t ∧ t < n
      ∧ (0 ≤ v → t = v.toNat) ∧ (v < 0 → t = n - (-v).toNat) := by
  unfold pyIndex
  by_cases h0 : 0 ≤ v
  · rw [if_pos h0, if_pos hhi]
    exact ⟨v.toNat, rfl, by omega, fun _ => rfl, fun hv => absurd hv (by omega)⟩
  · have hle : -v ≤ (n : Int) := by omega
    rw [if_neg h0, if_pos hle]
    exact ⟨n - (-v).toNat, rfl, by omega, fun hv => absurd hv h0, fun _ => rfl⟩

/-- C3 counterexample. A concrete full run in which the refinement pass
proposes paragraph index 5 for a one-paragraph document: the claim promises
that every proposed value leaves the pipeline unblocked with a valid
placement index, but the unvalidated proposal subscripts the paragraph list
out of range and the annotation pass aborts with an error. -/
theorem llm_refine_cex :
    annotatePlacements [s2l "x"] (fun _ => []) (fun _ => some 5)
      [⟨[], [], s2l "x", [], [], none, none, none, none, none⟩] = Except.error () := by
  rfl

/-- C3 amended. The refinement pass is advisory for placement, and safe
exactly on proposals within the paragraph list's index range: if every value
it proposes lies in Python's valid index range for the `n` paragraphs
(`-n ≤ v < n`), then every anchored group is still annotated (no error, one
placement per group, each placement a valid paragraph position), a group
whose first issue received no proposal keeps its per-issue paragraph index
unchanged, and a proposed value overrides the per-issue choice (negative
values addressing from the end). Out-of-range proposals abort the pass, as
`llm_refine_cex` shows. -/
theorem llm_refine_advisory (n : Nat) (issues : List IssueItem) (llmMap : Nat → Option Int)
    (groups : List (Nat × List IssueItem)) :
    (∀ g ∈ groups, g.1 < n) →
    (∀ k v, llmMap k = some v → -(n : Int) ≤ v ∧ v < (n : Int)) →
    ∃ ts, placeGroups n issues llmMap groups = Except.ok ts
      ∧ ts.length = groups.length
      ∧ (∀ t ∈ ts, t < n)
      ∧ ∀ j, j < groups.length →
          (llmMap (groupKey issues (groups.getD j (0, []))) = none →
            ts.getD j 0 = (groups.getD j (0, [])).1)
          ∧ (∀ v, llmMap (groupKey issues (groups.getD j (0, []))) = some v →
              (0 ≤ v → ts.getD j 0 = v.toNat) ∧
              (v < 0 → ts.getD j 0 = n - (-v).toNat)) := by
  intro hbound hrange
  induction groups with
  | nil =>
    exact ⟨[], rfl, rfl, fun t ht => absurd ht (List.not_mem_nil t),
      fun j hj => absurd hj (by simp)⟩
  | cons g rest ih =>
    have hg : g.1 < n := hbound g (List.mem_cons_self g rest)
    rcases ih (fun g' hg' => hbound g' (List.mem_cons_of_mem g hg')) with
      ⟨ts, hok, hlen, hval, hdesc⟩
    cases hl : llmMap (groupKey issues g) with
    | none =>
      have hpy : pyIndex n ((llmMap (groupKey issues g)).getD (g.1 : Int)) = some g.1 := by
        rw [hl, Option.getD_none, pyIndex_natCast n g.1 hg]
      refine ⟨g.1 :: ts, ?_, by simp [hlen], ?_, ?_⟩
      · simp only [placeGroups, hpy, hok]
      · intro t ht
        rcases List.mem_cons.1 ht with rfl | ht'
        · exact hg
        · exact hval t ht'
      · intro j hj
        match j with
        | 0 =>
          refine ⟨fun _ => by simp, fun v hv => ?_⟩
          rw [List.getD_cons_zero] at hv ⊢
          rw [hl] at hv
          cases hv
        | j' + 1 =>
          simp only [List.getD_cons_succ]
          exact hdesc j' (by simpa using hj)
    | some v =>
      rcases hrange (groupKey issues g) v hl with ⟨hlo, hhi⟩
      rcases pyIndex_valid n v hlo hhi with ⟨t, hpy, htn, htpos, htneg⟩
      have hpy' : pyIndex n ((llmMap (groupKey issues g)).getD (g.1 : Int)) = some t := by
        rw [hl, Option.getD_some, hpy]
      refine ⟨t :: ts, ?_, by simp [hlen], ?_, ?_⟩
      · simp only [placeGroups, hpy', hok]
      · intro t' ht'
        rcases List.mem_cons.1 ht' with rfl | ht''
        · exact htn
        · exact hval t' ht''
      · intro j hj
        match j with
        | 0 =>
          refine ⟨fun hnone => ?_, fun v' hv' => ?_⟩
          · rw [List.getD_cons_zero] at hnone
            rw [hl] at hnone
            cases hnone
          · rw [List.getD_cons_zero] at hv'
            rw [hl] at hv'
            have hvv : v' = v := (Option.some.inj hv').symm
            subst hvv
            rw [List.getD_cons_zero]
            exact ⟨htpos, htneg⟩
        | j' + 1 =>
          simp only [List.getD_cons_succ]
          exact hdesc j' (by simpa using hj)

/-- Closed instantiation of `llm_refine_advisory`: a single group anchored
at paragraph 0 of a two-paragraph document with a refinement map proposing
index 1 for every issue resolves to position 1 without error. -/
theorem llm_refine_advisory_witness :
    ∃ ts, placeGroups 2 [dummyIssue] (fun _ => some 1) [(0, [dummyIssue])] = Except.ok ts
      ∧ ts.length = 1
      ∧ (∀ t ∈ ts, t < 2)
      ∧ ∀ j, j < 1 →
          ((fun _ => (some 1 : Option Int)) (groupKey [dummyIssue]
              ([(0, [dummyIssue])].getD j (0, []))) = none →
            ts.getD j 0 = ([(0, [dummyIssue])].getD j (0, [])).1)
          ∧ (∀ v, (fun _ => (some 1 : Option Int)) (groupKey [dummyIssue]
                ([(0, [dummyIssue])].getD j (0, []))) = some v →
              (0 ≤ v → ts.getD j 0 = v.toNat) ∧
              (v < 0 → ts.getD j 0 = 2 - (-v).toNat)) := by
  have h := llm_refine_advisory 2 [dummyIssue] (fun _ => some 1) [(0, [dummyIssue])]
    (by
      intro g hg
      rcases List.mem_cons.1 hg with rfl | h0
      · decide
      · cases h0)
    (by
      intro k v hv
      rw [← Option.some.inj hv]
      constructor <;> decide)
  simpa using h
